import Mathlib

/-
Shallow embedding of the functional-prediction core of the SHOGUN repository
(file shogun/function/_function.py).  Python lists and dicts are modelled by
Lean lists and association lists (kept in insertion order, as Python dicts
are); numpy/scipy matrices are modelled by lists of rows; pandas DataFrames
carrying row/column labels are modelled by a structure holding the two label
lists and an entry function.  Integer counts are modelled by Nat/Int with an
explicit wrap at 8 bits where the source stores into an int8 matrix, and the
floating-point abundances by rationals.
-/

namespace Shogun

/-- Replace every space by an underscore: embedding of the Python expression
string.replace applied with a single-character pattern, as used on taxatable
summary keys in function_run_and_save. -/
def underscoreSpaces (s : String) : String :=
  ⟨s.data.map (fun c => if c = ' ' then '_' else c)⟩

/-- Strip trailing whitespace from a string: embedding of Python str.rstrip
with no argument, as used on group identifiers by the membership parsers. -/
def rstrip (s : String) : String :=
  ⟨(s.data.reverse.dropWhile Char.isWhitespace).reverse⟩

/-- Python str.split on a semicolon separator, over the character list of a
string: the empty string yields one empty field, and each semicolon closes
the current field. -/
def splitSemis : List Char → List (List Char)
  | [] => [[]]
  | c :: cs =>
    if c = ';' then [] :: splitSemis cs
    else
      match splitSemis cs with
      | [] => [[c]]
      | g :: gs => (c :: g) :: gs

/-- Python str.join with a semicolon separator, over character lists. -/
def joinSemis : List (List Char) → List Char
  | [] => []
  | [g] => g
  | g :: gs => g ++ ';' :: joinSemis gs

/-- Truncate a semicolon-delimited lineage to its first level fields and
rejoin: embedding of the Python expression joining split(lineage)[:level]
with a semicolon, used both in summarize_at_level (group keys) and in
function_run_and_save (taxatable summary keys, before space replacement). -/
def groupKey (level : Nat) (s : String) : String :=
  ⟨joinSemis ((splitSemis s.data).take level)⟩

/-- Python slicing of a string to its first n characters. -/
def strTake (s : String) (n : Nat) : String :=
  ⟨s.data.take n⟩

/-- Lexicographic comparison of character lists by code point, the order
Python uses to compare strings (and pandas to sort group keys). -/
def listCharLt : List Char → List Char → Bool
  | [], [] => false
  | [], _ :: _ => true
  | _ :: _, [] => false
  | a :: as, b :: bs => if a = b then listCharLt as bs else decide (a < b)

/-- Python string comparison: lexicographic on the character sequences. -/
def strLt (a b : String) : Bool := listCharLt a.data b.data

/-- The taxatable summary key built in function_run_and_save: the truncated
lineage with every space replaced by an underscore. -/
def taxKey (level : Nat) (s : String) : String :=
  underscoreSpaces (groupKey level s)

/-- Keep the first occurrence of every element of a list, dropping later
duplicates.  Used to model the set of distinct group keys that pandas
groupby forms. -/
def dedupFirst : List String → List String
  | [] => []
  | x :: xs => x :: (dedupFirst xs).filter (fun y => y != x)

/-- Insert a string into a (lexicographically) sorted list of strings. -/
def insertStr (x : String) : List String → List String
  | [] => [x]
  | y :: ys => if strLt x y then x :: y :: ys else y :: insertStr x ys

/-- Insertion sort on strings, modelling the sorted group-key order in which
pandas groupby iterates groups. -/
def sortStrs : List String → List String
  | [] => []
  | x :: xs => insertStr x (sortStrs xs)

/-- Insert an integer into a list sorted in nondecreasing order. -/
def insertInt (x : Int) : List Int → List Int
  | [] => [x]
  | y :: ys => if x ≤ y then x :: y :: ys else y :: insertInt x ys

/-- Insertion sort on integers, modelling the sort inside numpy median. -/
def sortInts : List Int → List Int
  | [] => []
  | x :: xs => insertInt x (sortInts xs)

/-- Wrap an integer into the two-complement 8-bit domain, modelling the cast
performed when values are stored into a scipy matrix of dtype int8. -/
def wrap8 (v : Int) : Int := (v + 128) % 256 - 128

/-- Numpy median of a list of integers followed by the int8 cast done by the
csr-matrix constructor in summarize_at_level: sort, take the middle element
(odd length) or the average of the two middle elements truncated toward zero
(even length, matching the float-to-int cast), then wrap to 8 bits. -/
def npMedianInt8 (vals : List Int) : Int :=
  let s := sortInts vals
  let n := s.length
  if n % 2 = 1 then wrap8 (s.getD (n / 2) 0)
  else wrap8 (Int.tdiv (s.getD (n / 2 - 1) 0 + s.getD (n / 2) 0) 2)

/-- State built by parse_kegg_table: the two label-to-index maps (kept as
association lists in insertion order, as Python dicts are) and the three
deferred csr triple lists.  Fields keep the Python variable names. -/
structure KeggAcc where
  rowNames : List (String × Nat)
  keggIds : List (String × Nat)
  data : List Nat
  indices : List Nat
  indptr : List Nat
  deriving Repr, DecidableEq

/-- Python dict lookup on an association list: the value bound to the first
entry with the given key, if any. -/
def lookupKey {α : Type} (k : String) : List (String × α) → Option α
  | [] => none
  | (a, v) :: rest => if k = a then some v else lookupKey k rest

/-- Python dict.setdefault on an association list: return the map (extended
with the next free index when the key is new) together with the value bound
to the key. -/
def setdefault (m : List (String × Nat)) (k : String) : List (String × Nat) × Nat :=
  match lookupKey k m with
  | some v => (m, v)
  | none => (m ++ [(k, m.length)], m.length)

/-- One step of collections.Counter: count one more occurrence of a token,
keeping first-occurrence order as Python dicts do. -/
def bump : List (String × Nat) → String → List (String × Nat)
  | [], t => [(t, 1)]
  | (k, v) :: rest, t => if k = t then (k, v + 1) :: rest else (k, v) :: bump rest t

/-- collections.Counter over a token list: occurrence counts of each distinct
token, in first-occurrence order. -/
def tally (tokens : List String) : List (String × Nat) :=
  tokens.foldl bump []

/-- The inner loop of parse_kegg_table over the items of one Counter:
for each nonempty token, append its column index (registering the token when
new) and its count to the triple lists. -/
def addCounts : List (String × Nat) → List (String × Nat) → List Nat → List Nat →
    List (String × Nat) × List Nat × List Nat
  | [], kg, idxs, dat => (kg, idxs, dat)
  | (k, v) :: rest, kg, idxs, dat =>
    if k = "" then addCounts rest kg idxs dat
    else addCounts rest (setdefault kg k).1 (idxs ++ [(setdefault kg k).2]) (dat ++ [v])

/-- Processing of one input line by parse_kegg_table: register the taxon
label (field 0) when new, tally the remaining fields, append the triples of
the nonempty tokens, and close the row by appending to indptr.  Lines are
assumed nonempty (Python would raise IndexError on an empty csv row, a fatal
parse error per the spec). -/
def procLine (acc : KeggAcc) (line : List String) : KeggAcc :=
  let res := addCounts (tally line.tail) acc.keggIds acc.indices acc.data
  { rowNames := (setdefault acc.rowNames (line.headD "")).1,
    keggIds := res.1, data := res.2.2, indices := res.2.1,
    indptr := acc.indptr ++ [res.2.1.length] }

/-- The initial parser state: empty maps and triple lists, indptr = [0]. -/
def initAcc : KeggAcc := ⟨[], [], [], [], [0]⟩

/-- Embedding of parse_kegg_table: stream the csv lines of the strain
annotation file through procLine.  The resulting sparse matrix is the csr
matrix built from (data, indices, indptr) with dtype int8; its number of
rows is indptr.length - 1. -/
def parse_kegg_table (lines : List (List String)) : KeggAcc :=
  lines.foldl procLine initAcc

/-- The row indices (positions in the strain matrix) of the members of the
group with key k, in increasing order: in summarize_at_level the taxon
labels are first sorted by their row index, so pandas groupby hands each
group its member rows in increasing row order.  Here names is the label
list in row order (position = row index). -/
def memberIndices (names : List String) (level : Nat) (k : String) : List Nat :=
  (names.enum.filter (fun p => groupKey level p.2 == k)).map Prod.fst

/-- The group keys in the order pandas groupby iterates them: the distinct
rank-truncated keys sorted lexicographically (groupby sorts keys by
default). -/
def sortedGroupKeys (names : List String) (level : Nat) : List String :=
  sortStrs (dedupFirst (names.map (groupKey level)))

/-- Collapse one group of strain rows, as the body of the groupby loop of
summarize_at_level does: a column j is kept when the fraction of members
with a value strictly greater than zero exceeds 0.8 (the comparison
count/size > 0.8 on exact fractions, equivalently 4*size < 5*count, which
agrees with the float comparison of the source for any feasible group
size); each kept column receives the numpy median of the member values of
that column, cast to int8.  The kept (column, value) pairs are produced in
increasing column order, as numpy where yields them. -/
def collapseGroup (grows : List (List Int)) (ncols : Nat) : List (Nat × Int) :=
  (List.range ncols).filterMap (fun j =>
    let col := grows.map (fun r => r.getD j 0)
    if 4 * grows.length < 5 * (col.filter (fun v => decide (0 < v))).length
    then some (j, npMedianInt8 col) else none)

/-- One iteration of the groupby loop of summarize_at_level: collapse the
group with key k; when no column is kept the group yields nothing,
otherwise the output row (key, kept entries). -/
def groupRowOpt (rows : List (List Int)) (names : List String) (ncols level : Nat)
    (k : String) : Option (String × List (Nat × Int)) :=
  let g := collapseGroup ((memberIndices names level k).map (fun i => rows.getD i [])) ncols
  if g.isEmpty then none else some (k, g)

/-- Embedding of summarize_at_level: rows is the strain matrix as a list of
dense rows (row index = position), names the taxon labels in row order,
ncols the column count of the matrix, level the requested rank.  Groups are
visited in sorted key order; a group whose threshold test keeps no column
contributes no output row; each contributing group is assigned the next
output row index (its position in the result list) and its kept sparse
entries. -/
def summarize_at_level (rows : List (List Int)) (names : List String)
    (ncols level : Nat) : List (String × List (Nat × Int)) :=
  (sortedGroupKeys names level).filterMap (groupRowOpt rows names ncols level)

/-- The accumulation loop of _create_kegg_table: fold over the taxatable
rows (taxon label, per-sample abundances); a row whose label is found in
the reference row mapping adds the outer product of its abundance vector
and its reference row to the accumulator table (indexed sample, function);
a row whose label is absent leaves the accumulator unchanged.  ref is the
reference matrix as a list of dense rows. -/
def accumTable (rowNames : List (String × Nat)) (ref : List (List Int)) :
    List (String × List ℚ) → (Nat → Nat → ℚ) → Nat → Nat → ℚ
  | [], t => t
  | (n, ab) :: rest, t =>
    match lookupKey n rowNames with
    | some i => accumTable rowNames ref rest
        (fun s f => t s f + ab.getD s 0 * (((ref.getD i []).getD f 0 : Int) : ℚ))
    | none => accumTable rowNames ref rest t

/-- The function-by-sample table returned by _create_kegg_table: the
accumulator (S samples by F functions, started at zero), transposed to
function-by-sample orientation, with rows that are entirely zero filtered
out. -/
def outKeggTable (taxa : List (String × List ℚ)) (rowNames : List (String × Nat))
    (ref : List (List Int)) (S F : Nat) : List (List ℚ) :=
  ((List.range F).map (fun f => (List.range S).map (fun s =>
      accumTable rowNames ref taxa (fun _ _ => 0) s f))).filter
    (fun row => row.any (fun x => x != 0))

/-- The row_names_found counter of _create_kegg_table: the number of
taxatable rows whose label is found in the reference row mapping. -/
def matchedCount (taxa : List (String × List ℚ)) (rowNames : List (String × Nat)) : Nat :=
  (taxa.filter (fun p => (lookupKey p.1 rowNames).isSome)).length

/-- The overlap diagnostic of _create_kegg_table: matched row count divided
by the total taxatable row count (exact rational in place of the float
quotient). -/
def overlapOf (taxa : List (String × List ℚ)) (rowNames : List (String × Nat)) : ℚ :=
  (matchedCount taxa rowNames : ℚ) / (taxa.length : ℚ)

/-- Whether _create_kegg_table emits its warning-level signal: exactly when
the overlap is below one half (otherwise a debug-level signal is emitted;
in neither case does the function abort). -/
def overlapWarning (taxa : List (String × List ℚ)) (rowNames : List (String × Nat)) : Bool :=
  decide (overlapOf taxa rowNames < 1 / 2)

/-- A pandas DataFrame: row labels, column labels, and the entry at a pair
of labels (zero off the label lists). -/
structure DF where
  rowL : List String
  colL : List String
  val : String → String → ℚ

/-- DataFrame.reindex on the row axis with fill_value 0: the new row-label
list replaces the old one; entries at labels absent from the old row list
are zero. -/
def reindexRows (d : DF) (newRows : List String) : DF :=
  { rowL := newRows, colL := d.colL,
    val := fun r c => if d.rowL.contains r then d.val r c else 0 }

/-- DataFrame.dot: matrix product summing over the column labels of the
left factor (which pandas requires to coincide, as a set, with the row
labels of the right factor). -/
def dfDot (a b : DF) : DF :=
  { rowL := a.rowL, colL := b.colL,
    val := fun r c => (a.colL.map (fun k => a.val r k * b.val k c)).sum }

/-- The elementwise comparison table (d > 0), with True read as 1 in the
subsequent dot product. -/
def dfPos (d : DF) : DF :=
  { d with val := fun r c => if 0 < d.val r c then 1 else 0 }

/-- DataFrame.sum(axis=1): the sum of the row of d at label r. -/
def dfRowSum (d : DF) (r : String) : ℚ :=
  (d.colL.map (fun c => d.val r c)).sum

/-- DataFrame.div(series, axis=0) where the series holds the row sums of d:
divide each entry of num by the row sum of d at its row label. -/
def dfDivRowSums (num d : DF) : DF :=
  { num with val := fun r c => num.val r c / dfRowSum d r }

/-- The zero-row filter applied to both outputs of summarize_kegg_table:
keep only row labels whose row has some nonzero entry. -/
def dropZeroRows (d : DF) : DF :=
  { d with rowL := d.rowL.filter (fun r => d.colL.any (fun c => d.val r c != 0)) }

/-- Embedding of summarize_kegg_table: reindex the function table kegg_table
to the column labels of summary_table (fill 0), take the dot product of
summary_table with the reindexed table for the group abundances, and with
its positivity indicator divided by the row sums of summary_table for the
coverage; drop all-zero rows from both. -/
def summarize_kegg_table (kegg_table summary_table : DF) : DF × DF :=
  let filtered := reindexRows kegg_table summary_table.colL
  let df_summary := dfDot summary_table filtered
  let df_coverage := dfDivRowSums (dfDot summary_table (dfPos filtered)) summary_table
  (dropZeroRows df_summary, dropZeroRows df_coverage)

/-- The key under which a module membership line is tallied: field 0,
right-stripped. -/
def modKeyOf (l : List String) : String := rstrip (l.headD "")

/-- The function token a module membership line contributes: the first 7
characters of its last field. -/
def modTokOf (l : List String) : String := strTake (l.getLastD "") 7

/-- Embedding of _parse_modules: tally (module id, function token) pairs and
freeze them into a DataFrame.  pandas builds the frame from a dict mapping
each module id to its Counter, so the module ids become the COLUMN labels
and the counted function tokens the row labels (the index); missing cells
are filled with zero.  Row/column label order is modelled as first
appearance; only the label sets matter for the claims below. -/
def parse_modules (lines : List (List String)) : DF :=
  { rowL := dedupFirst (lines.map modTokOf),
    colL := dedupFirst (lines.map modKeyOf),
    val := fun r c => ((lines.filter (fun l => modKeyOf l == c && modTokOf l == r)).length : ℚ) }

/-- The pathway membership lines that are tallied: field 1 equal to the
enzyme marker and field 4 nonempty. -/
def pathLines (lines : List (List String)) : List (List String) :=
  lines.filter (fun l => l.getD 1 "" == "Enzymes" && l.getD 4 "" != "")

/-- The key under which a pathway membership line is tallied: field 0,
right-stripped. -/
def pathKeyOf (l : List String) : String := rstrip (l.headD "")

/-- The function token a pathway membership line contributes: field 4. -/
def pathTokOf (l : List String) : String := l.getD 4 ""

/-- Embedding of _parse_pathways: as parse_modules, over the filtered lines,
with the full field 4 as function token.  Pathway ids are the column
labels, function tokens the row labels. -/
def parse_pathways (lines : List (List String)) : DF :=
  { rowL := dedupFirst ((pathLines lines).map pathTokOf),
    colL := dedupFirst ((pathLines lines).map pathKeyOf),
    val := fun r c =>
      (((pathLines lines).filter (fun l => pathKeyOf l == c && pathTokOf l == r)).length : ℚ) }

/-- The reference bundle assembled by parse_function_db when all three
files are present; field names follow the dict keys of the source. -/
structure FunctionDB where
  modules_file : String
  file : String
  pathways_file : String
  names : List (String × Nat)
  kegg_ids : List (String × Nat)
  csr : KeggAcc
  modules : DF
  pathways : DF

/-- The three expected reference file names for a function database with
the given name prefix under the given database directory. -/
def functionDbFiles (database fn : String) : List String :=
  ["module-annotations.txt", "strain2ko.txt", "pathway-annotations.txt"].map
    (fun suf => database ++ "/" ++ fn ++ "-" ++ suf)

/-- Embedding of parse_function_db: metadata is the metadata dict, present
the set of file names the glob over the database directory finds, and
readLines gives the parsed csv lines of a file.  When metadata has no
function key, or any one of the three expected files is absent from
present, the result is none (the empty dict of the source); otherwise the
fully populated bundle. -/
def parse_function_db (metadata : List (String × String)) (database : String)
    (present : List String) (readLines : String → List (List String)) : Option FunctionDB :=
  match lookupKey "function" metadata with
  | none => none
  | some fn =>
    let files := functionDbFiles database fn
    if files.all (fun f => present.contains f) then
      some { modules_file := files.getD 0 "", file := files.getD 1 "",
             pathways_file := files.getD 2 "",
             names := (parse_kegg_table (readLines (files.getD 1 ""))).rowNames,
             kegg_ids := (parse_kegg_table (readLines (files.getD 1 ""))).keggIds,
             csr := parse_kegg_table (readLines (files.getD 1 "")),
             modules := parse_modules (readLines (files.getD 0 "")),
             pathways := parse_pathways (readLines (files.getD 2 "")) }
    else none

/-- A concrete one-function, one-sample function table used to exercise
summarize_kegg_table: function K00001 has abundance 5 in sample S1. -/
def keggEx : DF :=
  { rowL := ["K00001"], colL := ["S1"],
    val := fun r c => if r = "K00001" ∧ c = "S1" then 5 else 0 }

/- ------------------------------------------------------------------ -/
/- Helper lemmas -/
/- ------------------------------------------------------------------ -/

theorem getD_mem_or {α : Type} (l : List α) (n : Nat) (d : α) :
    l.getD n d ∈ l ∨ l.getD n d = d := by
  induction l generalizing n with
  | nil => right; cases n <;> rfl
  | cons x xs ih =>
    cases n with
    | zero => left; simp
    | succ m => exact (ih m).imp (fun h => List.mem_cons_of_mem x h) id

theorem bump_pos (m : List (String × Nat)) (t : String)
    (h : ∀ p ∈ m, 1 ≤ p.2) : ∀ p ∈ bump m t, 1 ≤ p.2 := by
  induction m with
  | nil =>
    intro p hp
    simp only [bump, List.mem_singleton] at hp
    subst hp
    exact Nat.le_refl 1
  | cons q rest ih =>
    intro p hp
    rcases q with ⟨k, v⟩
    by_cases hk : k = t
    · rw [show bump ((k, v) :: rest) t = (k, v + 1) :: rest from by
        simp only [bump]; rw [if_pos hk]] at hp
      rcases List.mem_cons.mp hp with hp | hp
      · subst hp; exact Nat.le_add_left 1 v
      · exact h p (List.mem_cons_of_mem _ hp)
    · rw [show bump ((k, v) :: rest) t = (k, v) :: bump rest t from by
        simp only [bump]; rw [if_neg hk]] at hp
      rcases List.mem_cons.mp hp with hp | hp
      · subst hp; exact h (k, v) (List.mem_cons_self _ _)
      · exact ih (fun q hq => h q (List.mem_cons_of_mem _ hq)) p hp

theorem tally_pos (tokens : List String) : ∀ p ∈ tally tokens, 1 ≤ p.2 := by
  have main : ∀ (ts : List String) (m : List (String × Nat)),
      (∀ p ∈ m, 1 ≤ p.2) → ∀ p ∈ ts.foldl bump m, 1 ≤ p.2 := by
    intro ts
    induction ts with
    | nil => intro m hm; simpa using hm
    | cons t rest ih =>
      intro m hm
      simpa [List.foldl_cons] using ih (bump m t) (bump_pos m t hm)
  exact main tokens [] (by simp)

theorem addCounts_data_pos (counts : List (String × Nat)) :
    ∀ (kg : List (String × Nat)) (idxs : List Nat) (dat : List Nat),
      (∀ v ∈ dat, 1 ≤ v) → (∀ p ∈ counts, 1 ≤ p.2) →
      ∀ v ∈ (addCounts counts kg idxs dat).2.2, 1 ≤ v := by
  induction counts with
  | nil => intro kg idxs dat hd _ v hv; exact hd v hv
  | cons q rest ih =>
    intro kg idxs dat hd hc v hv
    rcases q with ⟨k, c⟩
    by_cases hk : k = ""
    · rw [show addCounts ((k, c) :: rest) kg idxs dat = addCounts rest kg idxs dat from by
        simp only [addCounts]; rw [if_pos hk]] at hv
      exact ih kg idxs dat hd (fun p hp => hc p (List.mem_cons_of_mem _ hp)) v hv
    · rw [show addCounts ((k, c) :: rest) kg idxs dat
          = addCounts rest (setdefault kg k).1 (idxs ++ [(setdefault kg k).2]) (dat ++ [c]) from by
        simp only [addCounts]; rw [if_neg hk]] at hv
      refine ih _ _ _ ?_ (fun p hp => hc p (List.mem_cons_of_mem _ hp)) v hv
      intro w hw
      rcases List.mem_append.mp hw with hw | hw
      · exact hd w hw
      · have hc1 : 1 ≤ c := hc (k, c) (List.mem_cons_self _ _)
        have hwc : w = c := by simpa using hw
        omega

theorem procLine_data (acc : KeggAcc) (line : List String) :
    (procLine acc line).data
      = (addCounts (tally line.tail) acc.keggIds acc.indices acc.data).2.2 := rfl

theorem procLine_rowNames (acc : KeggAcc) (line : List String) :
    (procLine acc line).rowNames = (setdefault acc.rowNames (line.headD "")).1 := rfl

theorem procLine_indptr_length (acc : KeggAcc) (line : List String) :
    (procLine acc line).indptr.length = acc.indptr.length + 1 := by
  simp [procLine]

theorem parse_data_pos_aux (lines : List (List String)) :
    ∀ acc : KeggAcc, (∀ v ∈ acc.data, 1 ≤ v) →
      ∀ v ∈ (lines.foldl procLine acc).data, 1 ≤ v := by
  induction lines with
  | nil => intro acc h v hv; exact h v hv
  | cons line rest ih =>
    intro acc h v hv
    rw [List.foldl_cons] at hv
    refine ih (procLine acc line) ?_ v hv
    intro w hw
    rw [procLine_data] at hw
    exact addCounts_data_pos (tally line.tail) acc.keggIds acc.indices acc.data h
      (tally_pos line.tail) w hw

theorem parse_indptr_length_aux (lines : List (List String)) :
    ∀ acc : KeggAcc,
      (lines.foldl procLine acc).indptr.length = acc.indptr.length + lines.length := by
  induction lines with
  | nil => intro acc; simp
  | cons line rest ih =>
    intro acc
    rw [List.foldl_cons, ih, procLine_indptr_length]
    simp only [List.length_cons]
    omega

theorem lookupKey_none_iff {α : Type} (m : List (String × α)) (k : String) :
    lookupKey k m = none ↔ ∀ p ∈ m, p.1 ≠ k := by
  induction m with
  | nil => simp [lookupKey]
  | cons q rest ih =>
    rcases q with ⟨a, v⟩
    by_cases hk : k = a
    · subst hk
      simp [lookupKey]
    · rw [show lookupKey k ((a, v) :: rest) = lookupKey k rest from by
        simp only [lookupKey]; rw [if_neg hk]]
      rw [ih]
      constructor
      · intro h p hp
        rcases List.mem_cons.mp hp with hp | hp
        · subst hp; exact fun hh => hk hh.symm
        · exact h p hp
      · intro h p hp
        exact h p (List.mem_cons_of_mem _ hp)

theorem lookupKey_isSome_iff {α : Type} (m : List (String × α)) (k : String) :
    (lookupKey k m).isSome = true ↔ k ∈ m.map Prod.fst := by
  induction m with
  | nil => simp [lookupKey]
  | cons q rest ih =>
    rcases q with ⟨a, v⟩
    by_cases hk : k = a
    · subst hk
      simp [lookupKey]
    · rw [show lookupKey k ((a, v) :: rest) = lookupKey k rest from by
        simp only [lookupKey]; rw [if_neg hk]]
      simp [ih, hk]

theorem mem_setdefault_keys (m : List (String × Nat)) (k l : String) :
    l ∈ ((setdefault m k).1.map Prod.fst) ↔ l ∈ m.map Prod.fst ∨ l = k := by
  unfold setdefault
  cases h : lookupKey k m with
  | some v =>
    simp only
    constructor
    · exact Or.inl
    · intro hl
      rcases hl with hl | hl
      · exact hl
      · subst hl
        exact (lookupKey_isSome_iff m l).mp (by rw [h]; rfl)
  | none => simp

theorem setdefault_keys_nodup (m : List (String × Nat)) (k : String)
    (h : (m.map Prod.fst).Nodup) : ((setdefault m k).1.map Prod.fst).Nodup := by
  unfold setdefault
  cases hl : lookupKey k m with
  | some v => simpa using h
  | none =>
    simp only [List.map_append]
    rw [List.nodup_append]
    refine ⟨h, List.nodup_singleton k, ?_⟩
    intro a ha hak
    have hak2 : a = k := by simpa using hak
    obtain ⟨p, hp, hpk⟩ := List.mem_map.mp ha
    exact ((lookupKey_none_iff m k).mp hl p hp) (by rw [hpk, hak2])

theorem parse_rowkeys_aux (lines : List (List String)) :
    ∀ acc : KeggAcc, (acc.rowNames.map Prod.fst).Nodup →
      (((lines.foldl procLine acc).rowNames.map Prod.fst).Nodup ∧
        ∀ l, l ∈ (lines.foldl procLine acc).rowNames.map Prod.fst ↔
          (l ∈ acc.rowNames.map Prod.fst ∨ l ∈ lines.map (fun r => r.headD ""))) := by
  induction lines with
  | nil => intro acc h; exact ⟨h, fun l => by simp⟩
  | cons line rest ih =>
    intro acc h
    rw [List.foldl_cons]
    have h1 : ((procLine acc line).rowNames.map Prod.fst).Nodup := by
      rw [procLine_rowNames]; exact setdefault_keys_nodup _ _ h
    obtain ⟨hn, hm⟩ := ih (procLine acc line) h1
    refine ⟨hn, fun l => ?_⟩
    rw [hm l, procLine_rowNames, mem_setdefault_keys]
    simp only [List.map_cons, List.mem_cons]
    tauto

/- ------------------------------------------------------------------ -/
/- Claim theorems -/
/- ------------------------------------------------------------------ -/

/-- C4: for every annotation file parsed into the strain reference matrix,
every count appended to the deferred triple list (data) is strictly
positive: each is the Counter tally of a token that occurred at least once
in its line. -/
theorem c4_triples_positive :
    ∀ (lines : List (List String)), ∀ v ∈ (parse_kegg_table lines).data, 1 ≤ v := by
  intro lines v hv
  refine parse_data_pos_aux lines initAcc ?_ v hv
  intro w hw
  simp [initAcc] at hw

/-- C4 witness: a file with one line and a doubly repeated token stores the
single triple count 2, which the theorem certifies positive. -/
theorem c4_witness : 2 ∈ (parse_kegg_table [["t", "K1", "K1"]]).data ∧ 1 ≤ 2 :=
  ⟨by decide, c4_triples_positive [["t", "K1", "K1"]] 2 (by decide)⟩

/-- C5 counterexample: a file whose two lines carry the same taxon label
produces a sparse matrix with 2 rows (the csr row count is
indptr.length - 1, and one indptr entry is appended per line) but only 1
distinct registered taxon label, refuting the claim that the row count
equals the number of distinct labels. -/
theorem c5_counterexample :
    (parse_kegg_table [["t", "K1"], ["t", "K2"]]).indptr.length - 1
      ≠ (parse_kegg_table [["t", "K1"], ["t", "K2"]]).rowNames.length := by decide

/-- C5 amended: the sparse matrix has one row per input line
(indptr.length - 1 = number of lines), while the taxon-label map registers
a label only when new: its keys are duplicate-free and are exactly the
labels encountered in the file.  The matrix row count equals the number of
distinct labels exactly when no label repeats. -/
theorem c5_amended : ∀ lines : List (List String),
    (parse_kegg_table lines).indptr.length = lines.length + 1 ∧
    ((parse_kegg_table lines).rowNames.map Prod.fst).Nodup ∧
    ∀ l, l ∈ (parse_kegg_table lines).rowNames.map Prod.fst ↔
      l ∈ lines.map (fun r => r.headD "") := by
  intro lines
  have h1 := parse_indptr_length_aux lines initAcc
  have h2 := parse_rowkeys_aux lines initAcc (by simp [initAcc])
  refine ⟨?_, h2.1, fun l => ?_⟩
  · rw [show parse_kegg_table lines = lines.foldl procLine initAcc from rfl, h1]
    simp [initAcc]
    omega
  · rw [show parse_kegg_table lines = lines.foldl procLine initAcc from rfl, h2.2 l]
    simp [initAcc]

theorem filterMap_congr_my {α β : Type} (l : List α) (f g : α → Option β)
    (h : ∀ a ∈ l, f a = g a) : l.filterMap f = l.filterMap g := by
  induction l with
  | nil => rfl
  | cons x xs ih =>
    rw [List.filterMap_cons, List.filterMap_cons, h x (List.mem_cons_self _ _),
      ih (fun a ha => h a (List.mem_cons_of_mem _ ha))]

theorem wrap8_eq_self (v : Int) (h1 : -128 ≤ v) (h2 : v ≤ 127) : wrap8 v = v := by
  unfold wrap8
  omega

/-- C2: a function column is retained in the collapsed output of a group
exactly when strictly more than 80 percent of the rows of the group have a
nonzero count in it (expressed on exact fractions as 4*size < 5*count, for
the count domain of nonnegative entries); in particular a group of 5 with
presence in exactly 4 of 5 rows is excluded, presence in 5 of 5 is
included, and a group in which no column passes the threshold contributes
no output row of summarize_at_level. -/
theorem c2_threshold :
    (∀ (grows : List (List Int)) (ncols j : Nat),
      (∀ r ∈ grows, ∀ v ∈ r, 0 ≤ v) →
      ((∃ v, (j, v) ∈ collapseGroup grows ncols) ↔
        (j < ncols ∧ 4 * grows.length <
          5 * ((grows.map (fun r => r.getD j 0)).filter (fun v => decide (v ≠ 0))).length))) ∧
    collapseGroup [[1], [1], [1], [1], [0]] 1 = [] ∧
    collapseGroup [[1], [1], [1], [1], [1]] 1 = [(0, 1)] ∧
    summarize_at_level [[1], [0], [1], [1], [1]] ["g;1", "g;2", "g;3", "g;4", "g;5"] 1 1 = [] := by
  refine ⟨?_, by decide, by decide, by decide⟩
  intro grows ncols j h
  have hcol : ∀ v ∈ grows.map (fun r => r.getD j 0), 0 ≤ v := by
    intro v hv
    obtain ⟨r, hr, hrv⟩ := List.mem_map.mp hv
    rcases getD_mem_or r j 0 with hm | h0
    · have := h r hr _ hm
      rw [hrv] at this
      exact this
    · rw [← hrv, h0]
  have hfeq : (grows.map (fun r => r.getD j 0)).filter (fun v => decide (v ≠ 0))
      = (grows.map (fun r => r.getD j 0)).filter (fun v => decide (0 < v)) := by
    refine List.filter_congr ?_
    intro v hv
    have := hcol v hv
    exact decide_eq_decide.mpr (by omega)
  rw [hfeq]
  constructor
  · rintro ⟨v, hv⟩
    simp only [collapseGroup] at hv
    obtain ⟨j', hj', hfj⟩ := List.mem_filterMap.mp hv
    split at hfj
    case isTrue hc =>
      have hpair := Option.some.inj hfj
      have hj1 : j' = j := congrArg Prod.fst hpair
      subst hj1
      exact ⟨List.mem_range.mp hj', hc⟩
    case isFalse => simp at hfj
  · rintro ⟨hj, hlt⟩
    refine ⟨npMedianInt8 (grows.map (fun r => r.getD j 0)), ?_⟩
    simp only [collapseGroup]
    refine List.mem_filterMap.mpr ⟨j, List.mem_range.mpr hj, ?_⟩
    rw [if_pos hlt]

/-- C2 witness: a group of three rows, all with a positive entry in column
0, with the threshold iff instantiated there. -/
theorem c2_witness :
    (∃ v, ((0 : Nat), v) ∈ collapseGroup [[(1 : Int)], [1], [1]] 1) ↔
      (0 < 1 ∧ 4 * [[(1 : Int)], [1], [1]].length <
        5 * (([[(1 : Int)], [1], [1]].map (fun r => r.getD 0 0)).filter
          (fun v => decide (v ≠ 0))).length) :=
  c2_threshold.1 [[(1 : Int)], [1], [1]] 1 0 (by decide)

/-- C6 counterexample: the group "t" of the one-strain matrix [[0]] has
exactly one member (row 0), yet the collapse at rank 1 produces no output
row at all - the all-zero single row passes the threshold in no column -
refuting the claim that every single-member group yields a collapsed row
equal to the original row. -/
theorem c6_counterexample :
    memberIndices ["t"] 1 "t" = [0] ∧ summarize_at_level [[(0 : Int)]] ["t"] 1 1 = [] := by
  decide

/-- C6 amended: a single-member group collapses to exactly the strictly
positive entries of its row, each kept with its exact value (the median of
one value, unchanged by the int8 cast since the row already lies in the
int8 domain); in particular a single row with no strictly positive entry
keeps no column, and its group then contributes no output row. -/
theorem c6_amended : ∀ (r : List Int) (ncols : Nat),
    (∀ v ∈ r, -128 ≤ v ∧ v ≤ 127) →
    collapseGroup [r] ncols = (List.range ncols).filterMap (fun j =>
      if 0 < r.getD j 0 then some (j, r.getD j 0) else none) := by
  intro r ncols h
  unfold collapseGroup
  refine filterMap_congr_my _ _ _ ?_
  intro j _
  simp only [List.map_cons, List.map_nil, List.length_cons, List.length_nil]
  by_cases hp : 0 < r.getD j 0
  · have hfil : List.filter (fun v => decide (0 < v)) [r.getD j 0] = [r.getD j 0] := by
      simp only [List.filter]
      rw [decide_eq_true hp]
    rw [hfil, if_pos (by norm_num), if_pos hp]
    have hmed : npMedianInt8 [r.getD j 0] = wrap8 (r.getD j 0) := by
      simp [npMedianInt8, sortInts, insertInt]
    have hb : -128 ≤ r.getD j 0 ∧ r.getD j 0 ≤ 127 := by
      rcases getD_mem_or r j 0 with hm | h0
      · exact h _ hm
      · rw [h0]; omega
    rw [hmed, wrap8_eq_self _ hb.1 hb.2]
  · have hfil : List.filter (fun v => decide (0 < v)) [r.getD j 0] = [] := by
      simp only [List.filter]
      rw [decide_eq_false hp]
    rw [hfil, if_neg (by norm_num), if_neg hp]

/-- C6 witness: the single-member group with row [3] collapses to exactly
its one positive entry with its exact value. -/
theorem c6_witness : collapseGroup [[(3 : Int)]] 1 = [((0 : Nat), (3 : Int))] := by
  rw [c6_amended [(3 : Int)] 1 (by decide)]
  decide

theorem mem_dedupFirst (l : List String) (a : String) : a ∈ dedupFirst l ↔ a ∈ l := by
  induction l with
  | nil => simp [dedupFirst]
  | cons x xs ih =>
    simp only [dedupFirst, List.mem_cons, List.mem_filter, ih, bne_iff_ne]
    constructor
    · rintro (h | ⟨h, _⟩)
      · exact Or.inl h
      · exact Or.inr h
    · rintro (h | h)
      · exact Or.inl h
      · by_cases hx : a = x
        · exact Or.inl hx
        · exact Or.inr ⟨h, hx⟩

theorem dedupFirst_nodup (l : List String) : (dedupFirst l).Nodup := by
  induction l with
  | nil => exact List.nodup_nil
  | cons x xs ih =>
    rw [dedupFirst, List.nodup_cons]
    refine ⟨?_, ih.filter _⟩
    intro hx
    have := (List.mem_filter.mp hx).2
    simp at this

theorem mem_insertStr (x : String) (l : List String) (a : String) :
    a ∈ insertStr x l ↔ a = x ∨ a ∈ l := by
  induction l with
  | nil => simp [insertStr]
  | cons y ys ih =>
    rw [insertStr]
    by_cases h : strLt x y
    · rw [if_pos h]
      simp
    · rw [if_neg h]
      simp only [List.mem_cons, ih]
      tauto

theorem mem_sortStrs (l : List String) (a : String) : a ∈ sortStrs l ↔ a ∈ l := by
  induction l with
  | nil => simp [sortStrs]
  | cons x xs ih =>
    rw [sortStrs, mem_insertStr]
    simp [ih]

theorem listCharLt_trans (as bs cs : List Char) (h1 : listCharLt as bs = true)
    (h2 : listCharLt bs cs = true) : listCharLt as cs = true := by
  induction as generalizing bs cs with
  | nil =>
    cases bs with
    | nil => exact absurd h1 (by simp [listCharLt])
    | cons b bs2 =>
      cases cs with
      | nil => exact absurd h2 (by simp [listCharLt])
      | cons c cs2 => simp [listCharLt]
  | cons a as2 ih =>
    cases bs with
    | nil => exact absurd h1 (by simp [listCharLt])
    | cons b bs2 =>
      cases cs with
      | nil => exact absurd h2 (by simp [listCharLt])
      | cons c cs2 =>
        rw [listCharLt] at h1 h2 ⊢
        by_cases hab : a = b
        · subst hab
          rw [if_pos rfl] at h1
          by_cases hbc : a = c
          · subst hbc
            rw [if_pos rfl] at h2
            rw [if_pos rfl]
            exact ih bs2 cs2 h1 h2
          · rw [if_neg hbc] at h2 ⊢
            exact h2
        · rw [if_neg hab] at h1
          have hab2 : a < b := of_decide_eq_true h1
          by_cases hbc : b = c
          · rw [← hbc]
            rw [if_neg hab]
            exact h1
          · rw [if_neg hbc] at h2
            have hbc2 : b < c := of_decide_eq_true h2
            have hac : a < c := lt_trans hab2 hbc2
            have hnac : a ≠ c := by
              intro he
              rw [he] at hac
              exact lt_irrefl c hac
            rw [if_neg hnac]
            exact decide_eq_true hac

theorem listCharLt_total (as bs : List Char) (h1 : listCharLt as bs = false)
    (h2 : as ≠ bs) : listCharLt bs as = true := by
  induction as generalizing bs with
  | nil =>
    cases bs with
    | nil => exact absurd rfl h2
    | cons b bs2 => exact absurd h1 (by simp [listCharLt])
  | cons a as2 ih =>
    cases bs with
    | nil => simp [listCharLt]
    | cons b bs2 =>
      rw [listCharLt] at h1 ⊢
      by_cases hab : a = b
      · subst hab
        rw [if_pos rfl] at h1 ⊢
        refine ih bs2 h1 ?_
        intro he
        exact h2 (by rw [he])
      · rw [if_neg hab] at h1
        rw [if_neg (fun h => hab h.symm)]
        have : ¬a < b := of_decide_eq_false h1
        rcases lt_trichotomy a b with hlt | heq | hgt
        · exact absurd hlt this
        · exact absurd heq hab
        · exact decide_eq_true hgt

theorem strLt_trans (a b c : String) (h1 : strLt a b = true) (h2 : strLt b c = true) :
    strLt a c = true :=
  listCharLt_trans a.data b.data c.data h1 h2

theorem strLt_total (a b : String) (h1 : strLt a b = false) (h2 : a ≠ b) :
    strLt b a = true := by
  refine listCharLt_total a.data b.data h1 ?_
  intro he
  exact h2 (String.ext he)

theorem pairwise_insertStr (x : String) (l : List String)
    (hl : l.Pairwise (fun a b => strLt a b = true)) (hx : x ∉ l) :
    (insertStr x l).Pairwise (fun a b => strLt a b = true) := by
  induction l with
  | nil => simp [insertStr]
  | cons y ys ih =>
    rw [List.pairwise_cons] at hl
    obtain ⟨hy, hys⟩ := hl
    have hxy : x ≠ y := fun h => hx (h ▸ List.mem_cons_self _ _)
    have hxys : x ∉ ys := fun h => hx (List.mem_cons_of_mem _ h)
    rw [insertStr]
    by_cases h : strLt x y
    · rw [if_pos h]
      rw [List.pairwise_cons]
      constructor
      · intro z hz
        rcases List.mem_cons.mp hz with hz | hz
        · rw [hz]; exact h
        · exact strLt_trans x y z h (hy z hz)
      · exact List.pairwise_cons.mpr ⟨hy, hys⟩
    · rw [if_neg h]
      rw [List.pairwise_cons]
      constructor
      · intro z hz
        rcases (mem_insertStr x ys z).mp hz with hz | hz
        · rw [hz]
          exact strLt_total x y (Bool.eq_false_iff.mpr h) hxy
        · exact hy z hz
      · exact ih hys hxys

theorem pairwise_sortStrs (l : List String) (h : l.Nodup) :
    (sortStrs l).Pairwise (fun a b => strLt a b = true) := by
  induction l with
  | nil => simp [sortStrs]
  | cons x xs ih =>
    rw [List.nodup_cons] at h
    rw [sortStrs]
    refine pairwise_insertStr x (sortStrs xs) (ih h.2) ?_
    rw [mem_sortStrs]
    exact h.1

theorem map_fst_filterMap_keyed {β : Type} (l : List String)
    (f : String → Option (String × β)) (h : ∀ k y, f k = some y → y.1 = k) :
    (l.filterMap f).map Prod.fst = l.filter (fun k => (f k).isSome) := by
  induction l with
  | nil => rfl
  | cons x xs ih =>
    rw [List.filterMap_cons, List.filter_cons]
    cases hf : f x with
    | none =>
      simp only [hf, Option.isSome_none]
      rw [if_neg (by simp)]
      exact ih
    | some y =>
      simp only [hf, Option.isSome_some]
      rw [if_pos trivial, List.map_cons, h x y hf, ih]

/-- C7 counterexample: for the two-strain matrix with labels "b;1" then
"a;1" at rank 1, the first-encountered group order in the traversal of
rows sorted by row index is ["b", "a"], but the collapsed output rows come
out as ["a", "b"]: pandas groupby iterates the groups in sorted key order,
not first-encountered order. -/
theorem c7_counterexample :
    (summarize_at_level [[(1 : Int)], [1]] ["b;1", "a;1"] 1 1).map Prod.fst = ["a", "b"] ∧
    dedupFirst (["b;1", "a;1"].map (groupKey 1)) = ["b", "a"] ∧
    (["a", "b"] : List String) ≠ ["b", "a"] := by
  decide

/-- C7 amended: the rows of the collapsed reference matrix are ordered by
group key in ascending lexicographic order (each retained group receiving
the next contiguous row index, its position in the output list), and the
output contains exactly the group keys of the input whose collapse keeps
some column. -/
theorem c7_amended : ∀ (rows : List (List Int)) (names : List String) (ncols level : Nat),
    ((summarize_at_level rows names ncols level).map Prod.fst).Pairwise
      (fun a b => strLt a b = true) ∧
    ∀ k, k ∈ (summarize_at_level rows names ncols level).map Prod.fst ↔
      ((∃ n ∈ names, groupKey level n = k) ∧
        collapseGroup ((memberIndices names level k).map (fun i => rows.getD i [])) ncols
          ≠ []) := by
  intro rows names ncols level
  have hkey : ∀ (k : String) (y : String × List (Nat × Int)),
      groupRowOpt rows names ncols level k = some y → y.1 = k := by
    intro k y hy
    simp only [groupRowOpt] at hy
    split at hy
    · cases hy
    · cases hy; rfl
  have hsome : ∀ k : String, (groupRowOpt rows names ncols level k).isSome = true ↔
      collapseGroup ((memberIndices names level k).map (fun i => rows.getD i [])) ncols
        ≠ [] := by
    intro k
    simp only [groupRowOpt]
    cases hc : collapseGroup ((memberIndices names level k).map (fun i => rows.getD i []))
        ncols with
    | nil => simp
    | cons e es => simp
  have hmap : (summarize_at_level rows names ncols level).map Prod.fst
      = (sortedGroupKeys names level).filter
          (fun k => (groupRowOpt rows names ncols level k).isSome) :=
    map_fst_filterMap_keyed _ _ hkey
  constructor
  · rw [hmap]
    exact (pairwise_sortStrs _ (dedupFirst_nodup _)).filter _
  · intro k
    rw [hmap, List.mem_filter, hsome k]
    simp only [sortedGroupKeys, mem_sortStrs, mem_dedupFirst, List.mem_map]

/-- C8: the overlap diagnostic equals the matched-row count divided by the
total row count of the taxatable, lies in [0, 1], and the warning-level
signal is emitted exactly when it is below one half (the function emits a
debug signal otherwise and never aborts). -/
theorem c8_overlap : ∀ (taxa : List (String × List ℚ)) (rowNames : List (String × Nat)),
    0 < taxa.length →
    (overlapOf taxa rowNames = (matchedCount taxa rowNames : ℚ) / (taxa.length : ℚ) ∧
      0 ≤ overlapOf taxa rowNames ∧ overlapOf taxa rowNames ≤ 1 ∧
      (overlapWarning taxa rowNames = true ↔ overlapOf taxa rowNames < 1 / 2)) := by
  intro taxa rowNames h
  have hn : (0 : ℚ) < (taxa.length : ℚ) := by exact_mod_cast h
  refine ⟨rfl, ?_, ?_, ?_⟩
  · exact div_nonneg (Nat.cast_nonneg _) (le_of_lt hn)
  · rw [overlapOf, div_le_one hn]
    have hle : matchedCount taxa rowNames ≤ taxa.length := List.length_filter_le _ _
    exact_mod_cast hle
  · rw [overlapWarning]
    exact decide_eq_true_iff

/-- C8 witness: a one-row taxatable whose taxon is present in the
reference. -/
theorem c8_witness :
    overlapOf [("t", [(1 : ℚ)])] [("t", 0)]
        = (matchedCount [("t", [(1 : ℚ)])] [("t", 0)] : ℚ) / (([("t", [(1 : ℚ)])].length : ℚ)) ∧
      0 ≤ overlapOf [("t", [(1 : ℚ)])] [("t", 0)] ∧
      overlapOf [("t", [(1 : ℚ)])] [("t", 0)] ≤ 1 ∧
      (overlapWarning [("t", [(1 : ℚ)])] [("t", 0)] = true ↔
        overlapOf [("t", [(1 : ℚ)])] [("t", 0)] < 1 / 2) :=
  c8_overlap [("t", [(1 : ℚ)])] [("t", 0)] (by decide)

/-- C9: when the metadata requests a function database but any one of the
three expected reference files is missing from the database directory, the
reference-load step returns none (the empty result of the source), never a
partially populated bundle: the populated branch is only reached when all
three files are present. -/
theorem c9_missing_file : ∀ (metadata : List (String × String)) (database : String)
    (present : List String) (readLines : String → List (List String)) (fn file : String),
    lookupKey "function" metadata = some fn →
    file ∈ functionDbFiles database fn → file ∉ present →
    parse_function_db metadata database present readLines = none := by
  intro metadata database present readLines fn file hfn hfile hnp
  have hall : (functionDbFiles database fn).all (fun f => present.contains f) = false := by
    rw [List.all_eq_false]
    refine ⟨file, hfile, ?_⟩
    intro hc
    exact hnp (List.elem_iff.mp hc)
  simp only [parse_function_db, hfn, hall]
  rfl

/-- C9 witness: a metadata dict requesting database kegg with an empty
directory. -/
theorem c9_witness :
    parse_function_db [("function", "kegg")] "db" [] (fun _ => []) = none :=
  c9_missing_file [("function", "kegg")] "db" [] (fun _ => [])
    "kegg" "db/kegg-strain2ko.txt" (by decide) (by decide) (by decide)

theorem map_eq_self_mem {α : Type} (l : List α) (f : α → α) (h : l.map f = l) :
    ∀ a ∈ l, f a = a := by
  induction l with
  | nil => intro a ha; cases ha
  | cons x xs ih =>
    rw [List.map_cons] at h
    injection h with h1 h2
    intro a ha
    rcases List.mem_cons.mp ha with ha | ha
    · rw [ha]; exact h1
    · exact ih h2 a ha

theorem accumTable_cons_none (rowNames : List (String × Nat)) (ref : List (List Int))
    (n : String) (ab : List ℚ) (taxa : List (String × List ℚ))
    (h : lookupKey n rowNames = none) :
    ∀ t, accumTable rowNames ref ((n, ab) :: taxa) t = accumTable rowNames ref taxa t := by
  intro t
  simp only [accumTable, h]

theorem outKeggTable_cons_none {n : String} {ab : List ℚ}
    {taxa : List (String × List ℚ)} {rowNames : List (String × Nat)}
    {ref : List (List Int)} {S F : Nat}
    (h : lookupKey n rowNames = none) :
    outKeggTable ((n, ab) :: taxa) rowNames ref S F = outKeggTable taxa rowNames ref S F := by
  simp only [outKeggTable, accumTable_cons_none rowNames ref n ab taxa h]

/-- C10: when a taxatable summary key is built at a rank whose truncated
lineage contains a space, the underscore replacement makes it differ from
the group key that summarize_at_level builds from the same lineage (which
replaces nothing); and a taxatable row whose key matches no reference row
key leaves the produced function table unchanged, contributing nothing. -/
theorem c10_space_mismatch : ∀ (level : Nat) (s : String),
    ' ' ∈ (groupKey level s).data →
    (taxKey level s ≠ groupKey level s ∧
      ∀ (ab : List ℚ) (taxa : List (String × List ℚ)) (rowNames : List (String × Nat))
        (ref : List (List Int)) (S F : Nat),
        (∀ p ∈ rowNames, p.1 ≠ taxKey level s) →
        outKeggTable ((taxKey level s, ab) :: taxa) rowNames ref S F
          = outKeggTable taxa rowNames ref S F) := by
  intro level s hsp
  constructor
  · intro heq
    have hd : (groupKey level s).data.map (fun c => if c = ' ' then '_' else c)
        = (groupKey level s).data := congrArg String.data heq
    have hsw := map_eq_self_mem _ _ hd ' ' hsp
    exact absurd hsw (by decide)
  · intro ab taxa rowNames ref S F hnone
    exact outKeggTable_cons_none ((lookupKey_none_iff _ _).mpr hnone)

/-- C10 witness: the lineage "a b;c" truncated at rank 1 is "a b"; its
taxatable key "a_b" differs from the reference group key "a b", and a
taxatable row keyed "a_b" against an empty reference contributes nothing. -/
theorem c10_witness :
    (taxKey 1 "a b;c" ≠ groupKey 1 "a b;c") ∧
    outKeggTable [(taxKey 1 "a b;c", [(5 : ℚ)])] [] [] 1 1 = outKeggTable [] [] [] 1 1 :=
  ⟨(c10_space_mismatch 1 "a b;c" (by decide)).1,
   (c10_space_mismatch 1 "a b;c" (by decide)).2 [(5 : ℚ)] [] [] [] 1 1 (by simp)⟩

theorem sum_map_zeroQ {α : Type} (l : List α) : (l.map (fun _ => (0 : ℚ))).sum = 0 := by
  induction l with
  | nil => rfl
  | cons x xs ih => simp only [List.map_cons, List.sum_cons, ih, add_zero, zero_add]

theorem sum_map_addQ {α : Type} (l : List α) (f g : α → ℚ) :
    (l.map (fun a => f a + g a)).sum = (l.map f).sum + (l.map g).sum := by
  induction l with
  | nil => simp
  | cons x xs ih =>
    simp only [List.map_cons, List.sum_cons, ih]
    ring

theorem sum_map_mul_leftQ {α : Type} (l : List α) (c : ℚ) (f : α → ℚ) :
    (l.map (fun a => c * f a)).sum = c * (l.map f).sum := by
  induction l with
  | nil => simp
  | cons x xs ih =>
    simp only [List.map_cons, List.sum_cons, ih]
    ring

theorem list_sum_comm {α β : Type} (l1 : List α) (l2 : List β) (c : α → β → ℚ) :
    (l2.map (fun b => (l1.map (fun a => c a b)).sum)).sum
      = (l1.map (fun a => (l2.map (fun b => c a b)).sum)).sum := by
  induction l1 with
  | nil => exact sum_map_zeroQ l2
  | cons x xs ih =>
    simp only [List.map_cons, List.sum_cons]
    rw [sum_map_addQ l2 (fun b => c x b) (fun b => (xs.map (fun a => c a b)).sum), ih]

theorem map_map_my {α β γ : Type} (l : List α) (f : α → β) (g : β → γ) :
    (l.map f).map g = l.map (fun a => g (f a)) := by
  rw [List.map_map]
  rfl

theorem map_range_succ_shift {α : Type} (g : Nat → α) (n : Nat) :
    (List.range (n + 1)).map g = g 0 :: (List.range n).map (fun i => g (i + 1)) := by
  rw [List.range_succ_eq_map, List.map_cons, List.map_map]
  rfl

theorem getD_map_range (g : Nat → ℚ) : ∀ (S s : Nat), s < S →
    ((List.range S).map g).getD s 0 = g s := by
  intro S
  induction S generalizing g with
  | zero => intro s hs; exact absurd hs (Nat.not_lt_zero s)
  | succ T ih =>
    intro s hs
    rw [map_range_succ_shift]
    cases s with
    | zero => rfl
    | succ t => exact ih (fun i => g (i + 1)) t (by omega)

theorem filter_nonzero_colsum (rows : List (List ℚ)) (s : Nat) :
    ((rows.filter (fun row => row.any (fun x => x != 0))).map (fun r => r.getD s 0)).sum
      = (rows.map (fun r => r.getD s 0)).sum := by
  induction rows with
  | nil => rfl
  | cons r rest ih =>
    rw [List.filter_cons]
    by_cases hr : r.any (fun x => x != 0) = true
    · rw [if_pos hr, List.map_cons, List.sum_cons, List.map_cons, List.sum_cons, ih]
    · have hz : ∀ x ∈ r, x = 0 := by
        intro x hx
        have hfa := List.any_eq_false.mp (Bool.eq_false_iff.mpr hr) x hx
        simpa [bne_iff_ne] using hfa
      rw [if_neg hr, List.map_cons, List.sum_cons, ih]
      have h0 : r.getD s 0 = 0 := by
        rcases getD_mem_or r s 0 with hm | he
        · exact hz _ hm
        · exact he
      rw [h0, zero_add]

theorem castsum_range : ∀ (r : List Int) (F : Nat), r.length ≤ F →
    ((List.range F).map (fun f => ((r.getD f 0 : Int) : ℚ))).sum = ((r.sum : Int) : ℚ) := by
  intro r
  induction r with
  | nil =>
    intro F _
    have h0 : ∀ f : Nat, ((([] : List Int).getD f 0 : Int) : ℚ) = 0 := by
      intro f
      cases f <;> rfl
    calc ((List.range F).map (fun f => ((([] : List Int).getD f 0 : Int) : ℚ))).sum
        = ((List.range F).map (fun _ => (0 : ℚ))).sum := by
          rw [List.map_congr_left (fun f _ => h0 f)]
      _ = 0 := sum_map_zeroQ _
      _ = ((([] : List Int).sum : Int) : ℚ) := by simp
  | cons x xs ih =>
    intro F hF
    cases F with
    | zero => exact absurd hF (by simp)
    | succ T =>
      rw [map_range_succ_shift]
      simp only [List.sum_cons]
      have h2 : ((List.range T).map (fun i => (((x :: xs).getD (i + 1) 0 : Int) : ℚ))).sum
          = ((xs.sum : Int) : ℚ) := ih T (by simpa using hF)
      rw [h2]
      have hx : (((x :: xs).getD 0 0 : Int) : ℚ) = (x : ℚ) := rfl
      rw [hx]
      push_cast
      ring

theorem accumTable_apply (rowNames : List (String × Nat)) (ref : List (List Int)) :
    ∀ (taxa : List (String × List ℚ)) (t : Nat → Nat → ℚ) (s f : Nat),
      accumTable rowNames ref taxa t s f
        = t s f + (taxa.map (fun p =>
            match lookupKey p.1 rowNames with
            | some i => p.2.getD s 0 * (((ref.getD i []).getD f 0 : Int) : ℚ)
            | none => 0)).sum := by
  intro taxa
  induction taxa with
  | nil => intro t s f; simp [accumTable]
  | cons p rest ih =>
    intro t s f
    rcases p with ⟨n, ab⟩
    cases hl : lookupKey n rowNames with
    | some i =>
      rw [show accumTable rowNames ref ((n, ab) :: rest) t
          = accumTable rowNames ref rest
              (fun s f => t s f + ab.getD s 0 * (((ref.getD i []).getD f 0 : Int) : ℚ)) from by
        simp only [accumTable, hl]]
      rw [ih]
      simp only [List.map_cons, List.sum_cons, hl]
      ring
    | none =>
      rw [accumTable_cons_none rowNames ref n ab rest hl]
      rw [ih]
      simp only [List.map_cons, List.sum_cons, hl]
      ring

/-- C1: for every taxatable and reference matrix, the sum over all function
rows of the produced function table at a sample column s equals the sum,
over the taxatable rows whose taxon is present in the reference row
mapping, of the abundance of the row at s times the total of its reference
row of function counts; and a taxatable row absent from the reference mapping
leaves the produced table unchanged, contributing nothing to any entry. -/
theorem c1_propagation :
    (∀ (taxa : List (String × List ℚ)) (rowNames : List (String × Nat))
      (ref : List (List Int)) (S F s : Nat),
      s < S → (∀ r ∈ ref, r.length ≤ F) →
      ((outKeggTable taxa rowNames ref S F).map (fun row => row.getD s 0)).sum
        = (taxa.map (fun p =>
            match lookupKey p.1 rowNames with
            | some i => p.2.getD s 0 * (((ref.getD i []).sum : Int) : ℚ)
            | none => 0)).sum) ∧
    (∀ (taxa : List (String × List ℚ)) (rowNames : List (String × Nat))
      (ref : List (List Int)) (S F : Nat) (n : String) (ab : List ℚ),
      lookupKey n rowNames = none →
      outKeggTable ((n, ab) :: taxa) rowNames ref S F
        = outKeggTable taxa rowNames ref S F) := by
  constructor
  · intro taxa rowNames ref S F s hs href
    unfold outKeggTable
    rw [filter_nonzero_colsum, map_map_my]
    have h1 : ∀ f ∈ List.range F,
        ((List.range S).map (fun s2 =>
            accumTable rowNames ref taxa (fun _ _ => 0) s2 f)).getD s 0
          = (taxa.map (fun p =>
              match lookupKey p.1 rowNames with
              | some i => p.2.getD s 0 * (((ref.getD i []).getD f 0 : Int) : ℚ)
              | none => 0)).sum := by
      intro f _
      rw [getD_map_range _ S s hs, accumTable_apply]
      simp
    rw [List.map_congr_left h1]
    refine (list_sum_comm taxa (List.range F) _).trans ?_
    refine congrArg List.sum (List.map_congr_left ?_)
    intro p _
    cases hl : lookupKey p.1 rowNames with
    | none =>
      simp only [hl]
      exact sum_map_zeroQ _
    | some i =>
      simp only [hl]
      rw [sum_map_mul_leftQ]
      have hlen : (ref.getD i []).length ≤ F := by
        rcases getD_mem_or ref i [] with hm | he
        · exact href _ hm
        · rw [he]; exact Nat.zero_le F
      rw [castsum_range _ F hlen]
  · intro taxa rowNames ref S F n ab hl
    exact outKeggTable_cons_none hl

/-- C1 witness: one taxon matched at reference row 0 with abundance 2 and
reference row [3, 4] over one sample and two functions. -/
theorem c1_witness :
    ((outKeggTable [("t", [(2 : ℚ)])] [("t", 0)] [[(3 : Int), 4]] 1 2).map
        (fun row => row.getD 0 0)).sum
      = ([("t", [(2 : ℚ)])].map (fun p =>
          match lookupKey p.1 [("t", 0)] with
          | some i => p.2.getD 0 0 * ((([[(3 : Int), 4]].getD i []).sum : Int) : ℚ)
          | none => 0)).sum :=
  c1_propagation.1 [("t", [(2 : ℚ)])] [("t", 0)] [[(3 : Int), 4]] 1 2 0
    (by decide) (by decide)

/-- C3: evaluation of summarize_kegg_table at a concrete failing input.
The membership file line (M1, K00001) parses to a membership table whose
ROW labels are the function ids and whose COLUMN labels are the module ids
(the pandas frame is built from a dict keyed by module id).
summarize_kegg_table then reindexes the function table by the column
labels of the membership table - the module ids - so the reindexed table is
entirely zero (module ids are not function ids), the resulting module
abundance for the only candidate entry is 0, and the zero-row filter
leaves an empty output, against the claimed group-by-sample table in which
module M1 would receive abundance 5 * 1 = 5. -/
theorem c3_reindex_bug :
    (summarize_kegg_table keggEx (parse_modules [["M1", "K00001"]])).1.rowL = [] ∧
    (dfDot (parse_modules [["M1", "K00001"]])
        (reindexRows keggEx (parse_modules [["M1", "K00001"]]).colL)).val "K00001" "S1"
      = 0 ∧
    (parse_modules [["M1", "K00001"]]).val "K00001" "M1" = 1 ∧
    keggEx.val "K00001" "S1" = 5 := by
  have hpmrow : (parse_modules [["M1", "K00001"]]).rowL = ["K00001"] := by decide
  have hpmcol : (parse_modules [["M1", "K00001"]]).colL = ["M1"] := by decide
  have hcont : (keggEx.rowL.contains "M1") = false := by decide
  have hlen : ([["M1", "K00001"]].filter
      (fun l => modKeyOf l == "M1" && modTokOf l == "K00001")).length = 1 := by decide
  have hv1 : (parse_modules [["M1", "K00001"]]).val "K00001" "M1" = 1 := by
    show (([["M1", "K00001"]].filter
        (fun l => modKeyOf l == "M1" && modTokOf l == "K00001")).length : ℚ) = 1
    rw [hlen]
    norm_num
  have hreind : (reindexRows keggEx ["M1"]).val "M1" "S1" = 0 := by
    show (if keggEx.rowL.contains "M1" then keggEx.val "M1" "S1" else 0) = 0
    rw [hcont]
    simp
  have hdot : (dfDot (parse_modules [["M1", "K00001"]])
      (reindexRows keggEx (parse_modules [["M1", "K00001"]]).colL)).val "K00001" "S1"
      = 0 := by
    show (((parse_modules [["M1", "K00001"]]).colL).map
        (fun k => (parse_modules [["M1", "K00001"]]).val "K00001" k *
          (reindexRows keggEx (parse_modules [["M1", "K00001"]]).colL).val k "S1")).sum = 0
    rw [hpmcol]
    simp only [List.map_cons, List.map_nil, List.sum_cons, List.sum_nil]
    rw [hreind]
    ring
  refine ⟨?_, hdot, hv1, by norm_num [keggEx]⟩
  show ((parse_modules [["M1", "K00001"]]).rowL.filter
      (fun r => (keggEx.colL).any (fun c =>
        (dfDot (parse_modules [["M1", "K00001"]])
          (reindexRows keggEx (parse_modules [["M1", "K00001"]]).colL)).val r c != 0))) = []
  rw [hpmrow, show keggEx.colL = ["S1"] from rfl, List.filter_cons]
  have hany : (["S1"].any (fun c =>
      (dfDot (parse_modules [["M1", "K00001"]])
        (reindexRows keggEx (parse_modules [["M1", "K00001"]]).colL)).val "K00001" c != 0))
      = false := by
    simp only [List.any_cons, List.any_nil]
    rw [hdot]
    simp
  rw [hany]
  simp

end Shogun
